import Mathlib

/-!
Verification development for the gotd/tgcontrib pebble peer storage.

The repository has two source files, both implementing a peer-resolution
cache on top of the pebble ordered key-value engine:

* a prefixed-key variant (`PeerStorage` with `storage.KeyPrefix`, batch
  `add`, snapshot `Iterate` over the `[prefs, keyUpperBound prefs)` range,
  two-hop `Resolve` on one snapshot), embedded below as the functions in
  the `PeerStorage` namespace;
* a non-prefixed variant (`peer_storage.go`, whose `Add` writes only the
  record entry with a direct `Set`, and whose `Assign` batches the record
  entry plus one alias entry), embedded as the `Plain` namespace.

The engine is modelled as an association list from byte keys to byte
values where the most recent binding wins (pebble's last-write-wins view
of committed state).  Byte strings are `List Nat`; where the Go code does
byte arithmetic (`keyUpperBound`) the overflow is made explicit with
`% 256`.  Batches are applied atomically; a commit failure is modelled by
a `Bool` flag, matching the engine contract assumed by the code
(`batch.Commit` either applies all sets or none).
-/

/-- Byte strings (Go `[]byte`); a value `b` of a real byte satisfies `b < 256`. -/
abbrev Bytes : Type := List Nat

/-- Modelled from the spec: the reserved key space tag `storage.KeyPrefix`
(the `storage` package is not part of the sources); a fixed two-byte tag. -/
def KeyPrefix : Bytes := [95, 112]

/-- Modelled from the spec: `storage.PeerKey`, the canonical identity of a
peer (key material for the primary key). -/
structure PeerKey where
  peerID : Nat
deriving DecidableEq

/-- Modelled from the spec: `PeerKey.Bytes` — deterministic, injective
derivation of the primary key bytes, carrying the reserved tag so that all
primary records live in one scanned namespace. -/
def keyBytes (k : PeerKey) : Bytes := KeyPrefix ++ [k.peerID]

/-- Modelled from the spec: `storage.Peer` — an identity, an opaque payload
(`accessHash`) and the alias byte strings its `Keys()` method enumerates
("zero or more alias strings", arbitrary). -/
structure Peer where
  peerID : Nat
  accessHash : Nat
  keys : List Bytes
deriving DecidableEq

/-- Modelled from the spec: `storage.KeyFromPeer` — the canonical identity of a peer. -/
def keyFromPeer (p : Peer) : PeerKey := ⟨p.peerID⟩

/-! ### Byte codec

Modelled from the spec: the serialization format is an injectable byte
codec (`json.Marshal` / `json.Unmarshal` in the sources); what the code
relies on is `decode (encode p) = p` and that decoding can fail on foreign
bytes.  We use a simple executable length-prefixed codec with exactly
those properties. -/

/-- Encode one byte string with a length header. -/
def encList (l : List Nat) : List Nat := l.length :: l

/-- Encode a list of byte strings by concatenating length-prefixed blocks. -/
def encLists : List (List Nat) → List Nat
  | [] => []
  | l :: ls => encList l ++ encLists ls

/-- Serialize a peer (modelled codec for `json.Marshal`). -/
def encodePeer (p : Peer) : List Nat :=
  p.peerID :: p.accessHash :: p.keys.length :: encLists p.keys

/-- Read one length-prefixed byte string; `none` on truncated input. -/
def decList : List Nat → Option (List Nat × List Nat)
  | [] => none
  | n :: rest => if n ≤ rest.length then some (rest.take n, rest.drop n) else none

/-- Read `n` length-prefixed byte strings. -/
def decLists : Nat → List Nat → Option (List (List Nat) × List Nat)
  | 0, rest => some ([], rest)
  | n + 1, rest =>
    match decList rest with
    | none => none
    | some (l, r1) =>
      match decLists n r1 with
      | none => none
      | some (ls, r2) => some (l :: ls, r2)

/-- Deserialize a peer (modelled codec for `json.Unmarshal`); fails on
bytes that are not a full, exact encoding. -/
def decodePeer (bs : List Nat) : Option Peer :=
  match bs with
  | a :: h :: k :: rest =>
    match decLists k rest with
    | some (ls, []) => some ⟨a, h, ls⟩
    | _ => none
  | _ => none

/-! ### Engine state -/

/-- The committed state of the pebble engine: an association list of
key/value bindings, most recent binding first. -/
abbrev Store : Type := List (Bytes × Bytes)

/-- Point lookup (`pebble.Get` / `snapshot.Get`): the most recent binding
for the key, `none` for pebble's `ErrNotFound`. -/
def Store.get : Store → Bytes → Option Bytes
  | [], _ => none
  | (k, v) :: s, key => if k = key then some v else Store.get s key

/-- Apply a batch of sets in order (`batch.Set*; batch.Commit`): later sets
shadow earlier ones, and the whole list lands atomically. -/
def applyBatch (s : Store) (es : List (Bytes × Bytes)) : Store :=
  es.foldl (fun st e => e :: st) s

/-- Operation outcomes of the storage layer (`storage.ErrPeerNotFound`,
wrapped commit and unmarshal errors). -/
inductive StorageError : Type
  | peerNotFound
  | commitError
  | decodeError
deriving DecidableEq

/-! ### Prefixed variant (src/unnamed/part_000) -/

/-- `PeerStorage.add`: marshal the peer, derive the primary key, fill one
batch with the record entry followed by one alias entry per associated
key, and commit the batch once.  `ok` is the commit outcome injected from
the engine; on commit failure the state is unchanged (atomic batch). -/
def PeerStorage.add (ok : Bool) (s : Store) (associated : List Bytes) (value : Peer) :
    Store × Option StorageError :=
  let data := encodePeer value
  let id := keyBytes (keyFromPeer value)
  let entries := (id, data) :: associated.map (fun key => (key, id))
  if ok then (applyBatch s entries, none) else (s, some .commitError)

/-- `PeerStorage.Add`: `add` with the peer's own enumerated aliases. -/
def PeerStorage.Add (ok : Bool) (s : Store) (value : Peer) : Store × Option StorageError :=
  PeerStorage.add ok s value.keys value

/-- `PeerStorage.Assign`: `add` with the caller-supplied key appended to
the enumerated aliases. -/
def PeerStorage.Assign (ok : Bool) (s : Store) (key : Bytes) (value : Peer) :
    Store × Option StorageError :=
  PeerStorage.add ok s (value.keys ++ [key]) value

/-- `PeerStorage.Find`: point lookup of the record entry by the primary
key, then decode; `ErrPeerNotFound` when the key is absent. -/
def PeerStorage.Find (s : Store) (key : PeerKey) : Except StorageError Peer :=
  match Store.get s (keyBytes key) with
  | none => .error .peerNotFound
  | some data =>
    match decodePeer data with
    | none => .error .decodeError
    | some p => .ok p

/-- `PeerStorage.Resolve`: two-hop lookup against one snapshot — alias to
primary key, primary key to record, then decode.  Both hops read the same
store value `s` (the snapshot taken at call time). -/
def PeerStorage.Resolve (s : Store) (key : Bytes) : Except StorageError Peer :=
  match Store.get s key with
  | none => .error .peerNotFound
  | some id =>
    match Store.get s id with
    | none => .error .peerNotFound
    | some data =>
      match decodePeer data with
      | none => .error .decodeError
      | some p => .ok p

/-! ### Non-prefixed variant (src/pebble/peer_storage.go)

Its `Find` and `Resolve` are line-for-line the same algorithm as the
prefixed variant's, so `PeerStorage.Find` / `PeerStorage.Resolve` embed
them as well; only the write paths differ. -/

/-- `Plain.Add` (src/pebble/peer_storage.go): marshal and write the record
entry with a direct single-key `Set` — no alias entries are written. -/
def Plain.Add (s : Store) (value : Peer) : Store :=
  (keyBytes (keyFromPeer value), encodePeer value) :: s

/-- `Plain.Assign` (src/pebble/peer_storage.go): one batch holding the
record entry and a single alias entry for the caller-supplied key. -/
def Plain.Assign (ok : Bool) (s : Store) (key : Bytes) (value : Peer) :
    Store × Option StorageError :=
  let data := encodePeer value
  let id := keyBytes (keyFromPeer value)
  if ok then (applyBatch s [(id, data), (key, id)], none) else (s, some .commitError)

/-! ### Round-trip and injectivity of the codec -/

theorem decList_encList (l rest : List Nat) :
    decList (encList l ++ rest) = some (l, rest) := by
  simp [decList, encList, List.take_left, List.drop_left]

theorem decLists_encLists (ls : List (List Nat)) (rest : List Nat) :
    decLists ls.length (encLists ls ++ rest) = some (ls, rest) := by
  induction ls generalizing rest with
  | nil => simp [decLists, encLists]
  | cons l ls ih =>
    simp only [encLists, List.length_cons, decLists, List.append_assoc,
      decList_encList, ih]

theorem decodePeer_encodePeer (p : Peer) : decodePeer (encodePeer p) = some p := by
  have h := decLists_encLists p.keys []
  simp only [List.append_nil] at h
  simp [decodePeer, encodePeer, h]

theorem decLists_exact (n : Nat) (rest : List Nat) (ls : List (List Nat))
    (rem : List Nat) (h : decLists n rest = some (ls, rem)) :
    rest = encLists ls ++ rem ∧ ls.length = n := by
  induction n generalizing rest ls rem with
  | zero =>
    simp only [decLists, Option.some.injEq, Prod.mk.injEq] at h
    obtain ⟨h1, h2⟩ := h
    subst h1; subst h2
    simp [encLists]
  | succ n ih =>
    simp only [decLists] at h
    split at h
    · exact absurd h (by simp)
    · rename_i l r1 hd
      split at h
      · exact absurd h (by simp)
      · rename_i ls' r2 hds
        simp only [Option.some.injEq, Prod.mk.injEq] at h
        obtain ⟨h1, h2⟩ := h
        subst h2
        obtain ⟨he, hl⟩ := ih r1 ls' r2 hds
        subst h1
        constructor
        · -- decode of one block: rest = encList l ++ r1
          cases rest with
          | nil => simp [decList] at hd
          | cons m t =>
            simp only [decList] at hd
            by_cases hm : m ≤ t.length
            · simp only [hm, if_pos, Option.some.injEq, Prod.mk.injEq] at hd
              obtain ⟨hl1, hr1⟩ := hd
              subst hl1; subst hr1
              simp only [encLists, encList, List.cons_append, List.append_assoc, ← he]
              simp [List.length_take, Nat.min_eq_left hm]
            · simp [hm] at hd
        · simp [hl]

theorem decodePeer_inj (v : List Nat) (q : Peer) (h : decodePeer v = some q) :
    v = encodePeer q := by
  match v with
  | [] => simp [decodePeer] at h
  | [a] => simp [decodePeer] at h
  | [a, b] => simp [decodePeer] at h
  | a :: b :: k :: rest =>
    simp only [decodePeer] at h
    split at h
    · rename_i ls hd
      simp only [Option.some.injEq] at h
      obtain ⟨he, hl⟩ := decLists_exact k rest ls [] hd
      subst h
      simp only [encodePeer]
      rw [he, hl]
      simp
    · exact absurd h (by simp)

/-! ### keyUpperBound and the iterator range -/

/-- Helper for `keyUpperBound`, working on the reversed byte string: walk
from the last byte, increment with Go's byte wrap-around (`% 256`); a byte
that wrapped to zero (it was `0xFF`) is truncated and the walk continues. -/
def keyUpperBoundRev : List Nat → Option (List Nat)
  | [] => none
  | x :: rest =>
    if (x + 1) % 256 ≠ 0 then some (((x + 1) % 256) :: rest)
    else keyUpperBoundRev rest

/-- `keyUpperBound` (src/unnamed/part_000, lines 70-80): the exclusive
upper bound of the range of keys beginning with `b`; `none` means "no
upper bound". -/
def keyUpperBound (b : Bytes) : Option Bytes :=
  (keyUpperBoundRev b.reverse).map List.reverse

/-- The spec's words for `UpperBound`: strip the trailing `0xFF` bytes,
increment the last remaining byte; "no bound" when the input is empty or
all `0xFF`. -/
def upperBoundSpec (b : Bytes) : Option Bytes :=
  match b.reverse.dropWhile (fun x => x == 255) with
  | [] => none
  | x :: rest => some (((x + 1) :: rest).reverse)

/-- Strict lexicographic order on byte strings (pebble's key order). -/
def bytesLt : Bytes → Bytes → Bool
  | _, [] => false
  | [], _ :: _ => true
  | a :: as, b :: bs => a < b || (a == b && bytesLt as bs)

/-- Non-strict lexicographic order on byte strings. -/
def bytesLe (x y : Bytes) : Bool := bytesLt x y || x == y

/-- The key range scanned by `Iterate` (`prefixIterOptions`, src/unnamed/
part_000 lines 82-87): `KeyPrefix ≤ k`, and `k <` the bound computed by
`keyUpperBound KeyPrefix` when there is one. -/
def inRangeB (k : Bytes) : Bool :=
  bytesLe KeyPrefix k &&
    (match keyUpperBound KeyPrefix with
     | none => true
     | some u => bytesLt k u)

/-- The distinct keys of the snapshot that fall in the scanned range, in
pebble's ascending key order. -/
def iterKeys (s : Store) : List Bytes :=
  List.insertionSort (fun x y => bytesLe x y = true)
    (((s.map Prod.fst).dedup).filter inRangeB)

/-- The binding sequence the snapshot iterator walks over: each in-range
key together with its committed value at snapshot time. -/
def iterEntries (s : Store) : List (Bytes × Bytes) :=
  (iterKeys s).filterMap (fun k => (Store.get s k).map (fun v => (k, v)))

/-- One advance of the cursor, then all following ones
(`pebbleIterator.Next`, src/unnamed/part_000 lines 38-60): skip forward
past keys that do not start with `storage.KeyPrefix`; stop when the
iterator is exhausted; on an unmarshal failure latch the error and stop;
otherwise record the decoded value and continue.  `fuel` bounds the
recursion and is taken `≥` the number of remaining entries. -/
def drainFuel : Nat → List (Bytes × Bytes) → List Peer × Option StorageError
  | 0, _ => ([], none)
  | fuel + 1, entries =>
    match entries.dropWhile (fun e => !(KeyPrefix.isPrefixOf e.1)) with
    | [] => ([], none)
    | e :: rest =>
      match decodePeer e.2 with
      | none => ([], some .decodeError)
      | some p =>
        let r := drainFuel fuel rest
        (p :: r.1, r.2)

/-- Exhaust a cursor positioned on `entries`: the peers yielded by the
successive `Next` calls, and what `Err()` returns afterwards. -/
def drain (entries : List (Bytes × Bytes)) : List Peer × Option StorageError :=
  drainFuel entries.length entries

/-- Modelled from the spec (§6 engine contract): the engine iterator
exposes only `Next/Valid/Key/Value` (the entry stream) and `Close`; a scan
that hits an engine-level read error simply stops producing entries, and
the error itself travels through `Close`, not through the stream. -/
structure EngineIter where
  entries : List (Bytes × Bytes)
  readErr : Bool

/-- Exhausting the cursor over an engine iterator: the code of
`pebbleIterator.Next`/`Err` consumes only the entry stream, so the cursor
behaviour is `drain` of the entries. -/
def drainE (it : EngineIter) : List Peer × Option StorageError :=
  drain it.entries

/-! ### Lookup and batch lemmas -/

theorem applyBatch_eq (s : Store) (es : List (Bytes × Bytes)) :
    applyBatch s es = es.reverse ++ s := by
  induction es generalizing s with
  | nil => simp [applyBatch]
  | cons e es ih =>
    simp only [applyBatch, List.foldl_cons] at *
    rw [ih (e :: s)]
    simp

theorem get_append_some (l1 l2 : Store) (k v : Bytes)
    (h : Store.get l1 k = some v) : Store.get (l1 ++ l2) k = some v := by
  induction l1 with
  | nil => simp [Store.get] at h
  | cons e l1 ih =>
    obtain ⟨k0, v0⟩ := e
    simp only [Store.get, List.cons_append] at *
    by_cases hk : k0 = k
    · rw [if_pos hk] at h ⊢; exact h
    · rw [if_neg hk] at h ⊢; exact ih h

theorem get_append_none (l1 l2 : Store) (k : Bytes)
    (h : Store.get l1 k = none) : Store.get (l1 ++ l2) k = Store.get l2 k := by
  induction l1 with
  | nil => rfl
  | cons e l1 ih =>
    obtain ⟨k0, v0⟩ := e
    simp only [Store.get, List.cons_append] at *
    by_cases hk : k0 = k
    · rw [if_pos hk] at h; exact absurd h (by simp)
    · rw [if_neg hk] at h ⊢; exact ih h

theorem get_map_mem (ks : List Bytes) (id a : Bytes) (ha : a ∈ ks) :
    Store.get (ks.map (fun key => (key, id))) a = some id := by
  induction ks with
  | nil => simp at ha
  | cons k ks ih =>
    simp only [List.map_cons, Store.get]
    by_cases hk : k = a
    · rw [if_pos hk]
    · rw [if_neg hk]
      rcases List.mem_cons.mp ha with h1 | h1
      · exact absurd h1.symm hk
      · exact ih h1

theorem get_map_not_mem (ks : List Bytes) (id a : Bytes) (ha : a ∉ ks) :
    Store.get (ks.map (fun key => (key, id))) a = none := by
  induction ks with
  | nil => rfl
  | cons k ks ih =>
    simp only [List.map_cons, Store.get]
    by_cases hk : k = a
    · exact absurd (List.mem_cons.mpr (Or.inl hk.symm)) ha
    · rw [if_neg hk]
      exact ih (fun h => ha (List.mem_cons.mpr (Or.inr h)))

theorem get_mem (s : Store) (k v : Bytes) (h : Store.get s k = some v) : (k, v) ∈ s := by
  induction s with
  | nil => simp [Store.get] at h
  | cons e s ih =>
    obtain ⟨k0, v0⟩ := e
    simp only [Store.get] at h
    by_cases hk : k0 = k
    · rw [if_pos hk] at h
      simp only [Option.some.injEq] at h
      subst hk; subst h
      exact List.mem_cons_self _ _
    · rw [if_neg hk] at h
      exact List.mem_cons_of_mem _ (ih h)

theorem get_mem_keys (s : Store) (k v : Bytes) (h : Store.get s k = some v) :
    k ∈ s.map Prod.fst :=
  List.mem_map.mpr ⟨(k, v), get_mem s k v h, rfl⟩

/-! ### The state after a successful `add` -/

theorem add_true_fst (s : Store) (assoc : List Bytes) (p : Peer) :
    (PeerStorage.add true s assoc p).1 =
      (assoc.map (fun key => (key, keyBytes (keyFromPeer p)))).reverse
        ++ [(keyBytes (keyFromPeer p), encodePeer p)] ++ s := by
  simp [PeerStorage.add, applyBatch_eq]

theorem get_add_alias (s : Store) (assoc : List Bytes) (p : Peer) (a : Bytes)
    (ha : a ∈ assoc) :
    Store.get (PeerStorage.add true s assoc p).1 a = some (keyBytes (keyFromPeer p)) := by
  rw [add_true_fst]
  apply get_append_some
  apply get_append_some
  rw [← List.map_reverse]
  exact get_map_mem _ _ _ (List.mem_reverse.mpr ha)

theorem get_add_id (s : Store) (assoc : List Bytes) (p : Peer)
    (hid : keyBytes (keyFromPeer p) ∉ assoc) :
    Store.get (PeerStorage.add true s assoc p).1 (keyBytes (keyFromPeer p))
      = some (encodePeer p) := by
  rw [add_true_fst]
  apply get_append_some
  rw [get_append_none]
  · simp [Store.get]
  · rw [← List.map_reverse]
    exact get_map_not_mem _ _ _ (fun h => hid (List.mem_reverse.mp h))

theorem find_add (s : Store) (assoc : List Bytes) (p : Peer)
    (hid : keyBytes (keyFromPeer p) ∉ assoc) :
    PeerStorage.Find (PeerStorage.add true s assoc p).1 (keyFromPeer p) = .ok p := by
  simp [PeerStorage.Find, get_add_id s assoc p hid, decodePeer_encodePeer]

theorem resolve_add (s : Store) (assoc : List Bytes) (p : Peer) (a : Bytes)
    (ha : a ∈ assoc) (hid : keyBytes (keyFromPeer p) ∉ assoc) :
    PeerStorage.Resolve (PeerStorage.add true s assoc p).1 a = .ok p := by
  simp [PeerStorage.Resolve, get_add_alias s assoc p a ha, get_add_id s assoc p hid,
    decodePeer_encodePeer]

/-! ### Iterator lemmas -/

theorem mem_iterKeys (s : Store) (k : Bytes) :
    k ∈ iterKeys s ↔ k ∈ ((s.map Prod.fst).dedup).filter inRangeB :=
  (List.perm_insertionSort _ _).mem_iff

theorem iterEntries_sound (s : Store) (e : Bytes × Bytes) (he : e ∈ iterEntries s) :
    Store.get s e.1 = some e.2 ∧ inRangeB e.1 = true := by
  simp only [iterEntries, List.mem_filterMap] at he
  obtain ⟨k, hk, hf⟩ := he
  cases hg : Store.get s k with
  | none => rw [hg] at hf; simp at hf
  | some v =>
    rw [hg] at hf
    simp only [Option.map_some', Option.some.injEq] at hf
    subst hf
    refine ⟨hg, ?_⟩
    have := (mem_iterKeys s k).mp hk
    exact (List.mem_filter.mp this).2

theorem iterEntries_complete (s : Store) (k v : Bytes)
    (hg : Store.get s k = some v) (hr : inRangeB k = true) :
    (k, v) ∈ iterEntries s := by
  have hk : k ∈ iterKeys s := by
    rw [mem_iterKeys]
    exact List.mem_filter.mpr ⟨List.mem_dedup.mpr (get_mem_keys s k v hg), hr⟩
  simp only [iterEntries, List.mem_filterMap]
  exact ⟨k, hk, by rw [hg]; rfl⟩

theorem filterMap_get_map_fst (s : Store) (ks : List Bytes) :
    (ks.filterMap (fun k => (Store.get s k).map (fun v => (k, v)))).map Prod.fst
      = ks.filter (fun k => (Store.get s k).isSome) := by
  induction ks with
  | nil => rfl
  | cons k ks ih =>
    cases hg : Store.get s k with
    | none => simp [List.filterMap_cons, List.filter_cons, hg, ih]
    | some v => simp [List.filterMap_cons, List.filter_cons, hg, ih]

theorem iterEntries_keys_nodup (s : Store) :
    ((iterEntries s).map Prod.fst).Nodup := by
  rw [iterEntries, filterMap_get_map_fst]
  apply List.Nodup.filter
  exact ((List.perm_insertionSort _ _).nodup_iff).mpr
    ((List.nodup_dedup _).filter _)

theorem inRangeB_isPrefixOf (k : Bytes) (h : inRangeB k = true) :
    KeyPrefix.isPrefixOf k = true := by
  match k with
  | [] => exact absurd h (by decide)
  | [a] =>
    exfalso
    simp only [inRangeB] at h
    rw [show keyUpperBound KeyPrefix = some [95, 113] from rfl] at h
    simp only [KeyPrefix, bytesLe, bytesLt, Bool.and_eq_true, Bool.or_eq_true,
      beq_iff_eq, decide_eq_true_eq, List.cons.injEq, Bool.and_eq_true] at h
    obtain ⟨h1, h2⟩ := h
    rcases h1 with (h3 | ⟨h3, h4⟩) | ⟨h3, h4⟩
    · rcases h2 with h5 | ⟨h5, h6⟩ <;> omega
    · simp at h4
    · simp at h4
  | a :: b :: t =>
    simp only [inRangeB] at h
    rw [show keyUpperBound KeyPrefix = some [95, 113] from rfl] at h
    simp only [KeyPrefix, bytesLe, bytesLt, Bool.and_eq_true, Bool.or_eq_true,
      beq_iff_eq, decide_eq_true_eq, List.cons.injEq] at h
    simp only [List.isPrefixOf, KeyPrefix, Bool.and_eq_true, beq_iff_eq]
    obtain ⟨h1, h2⟩ := h
    have hab : 95 = a ∧ 112 = b := by
      rcases h1 with (h3 | ⟨h3, h4⟩) | ⟨h3, h4, h5⟩
      · rcases h2 with h5 | ⟨h5, h6⟩ <;> omega
      · rcases h2 with h5 | ⟨h5, h6⟩
        · omega
        · rcases h4 with h7 | ⟨h7, h8⟩
          · rcases h6 with h9 | ⟨h9, h10⟩
            · omega
            · simp at h10
          · exact ⟨h3, h7⟩
      · exact ⟨h3, h4⟩
    exact ⟨hab.1, hab.2, trivial⟩
theorem drainFuel_all (fuel : Nat) (entries : List (Bytes × Bytes))
    (hf : entries.length ≤ fuel)
    (h1 : ∀ e ∈ entries, KeyPrefix.isPrefixOf e.1 = true)
    (h2 : ∀ e ∈ entries, (decodePeer e.2).isSome) :
    drainFuel fuel entries = (entries.filterMap (fun e => decodePeer e.2), none) := by
  induction fuel generalizing entries with
  | zero =>
    have he : entries = [] := List.length_eq_zero.mp (Nat.le_zero.mp hf)
    subst he; rfl
  | succ fuel ih =>
    cases entries with
    | nil => rfl
    | cons e rest =>
      have hpe : KeyPrefix.isPrefixOf e.1 = true := h1 e (List.mem_cons_self _ _)
      have hrest : rest.length ≤ fuel := by simp at hf; omega
      simp only [drainFuel, List.dropWhile_cons, hpe, Bool.not_true,
        Bool.false_eq_true, if_false]
      cases hd : decodePeer e.2 with
      | none =>
        have := h2 e (List.mem_cons_self _ _)
        rw [hd] at this; simp at this
      | some p =>
        simp only [hd]
        rw [ih rest hrest
          (fun x hx => h1 x (List.mem_cons_of_mem _ hx))
          (fun x hx => h2 x (List.mem_cons_of_mem _ hx))]
        simp [List.filterMap_cons, hd]

theorem drainFuel_mem (fuel : Nat) (entries : List (Bytes × Bytes)) (q : Peer)
    (hq : q ∈ (drainFuel fuel entries).1) :
    ∃ e ∈ entries, decodePeer e.2 = some q := by
  induction fuel generalizing entries with
  | zero => simp [drainFuel] at hq
  | succ fuel ih =>
    simp only [drainFuel] at hq
    split at hq
    · simp at hq
    · rename_i e rest hd
      have hsub : e :: rest ⊆ entries := by
        have := List.dropWhile_sublist (l := entries)
          (fun x => !(KeyPrefix.isPrefixOf x.1))
        rw [hd] at this
        exact this.subset
      split at hq
      · simp at hq
      · rename_i p hdec
        simp only [List.mem_cons] at hq
        rcases hq with h | h
        · subst h; exact ⟨e, hsub (List.mem_cons_self _ _), hdec⟩
        · obtain ⟨x, hx, hdx⟩ := ih rest h
          exact ⟨x, hsub (List.mem_cons_of_mem _ hx), hdx⟩

theorem drainFuel_err (fuel : Nat) (entries : List (Bytes × Bytes)) :
    (drainFuel fuel entries).2 = none ∨
      (drainFuel fuel entries).2 = some .decodeError := by
  induction fuel generalizing entries with
  | zero => left; rfl
  | succ fuel ih =>
    simp only [drainFuel]
    split
    · left; rfl
    · rename_i e rest hd
      split
      · right; rfl
      · exact ih rest

theorem keyUpperBoundRev_spec (l : List Nat) (hb : ∀ x ∈ l, x < 256) :
    keyUpperBoundRev l =
      (match l.dropWhile (fun x => x == 255) with
       | [] => none
       | x :: rest => some ((x + 1) :: rest)) := by
  induction l with
  | nil => rfl
  | cons x rest ih =>
    have hx : x < 256 := hb x (List.mem_cons_self _ _)
    by_cases h255 : x = 255
    · subst h255
      simp only [keyUpperBoundRev, List.dropWhile_cons]
      norm_num
      exact ih (fun y hy => hb y (List.mem_cons_of_mem _ hy))
    · have hmod : (x + 1) % 256 = x + 1 := Nat.mod_eq_of_lt (by omega)
      simp only [keyUpperBoundRev, List.dropWhile_cons, hmod]
      rw [if_pos (by omega), if_neg (by simp [h255])]

theorem keyUpperBound_eq_spec (b : Bytes) (hb : ∀ x ∈ b, x < 256) :
    keyUpperBound b = upperBoundSpec b := by
  rw [keyUpperBound, upperBoundSpec,
    keyUpperBoundRev_spec b.reverse (fun x hx => hb x (List.mem_reverse.mp hx))]
  cases b.reverse.dropWhile (fun x => x == 255) with
  | nil => rfl
  | cons x rest => rfl

/-! ### Claims -/

/-- C1 (counterexample): the claim fails on the non-prefixed variant, whose
`Add` writes no alias entries at all — after `Add` of a peer with alias
`[97]`, `Resolve [97]` returns `NotFound`, not the peer. -/
theorem plain_add_then_resolve_alias_notfound :
    PeerStorage.Resolve (Plain.Add [] ⟨7, 0, [[97]]⟩) [97] = .error .peerNotFound ∧
    PeerStorage.Resolve (Plain.Add [] ⟨7, 0, [[97]]⟩) [97] ≠ .ok ⟨7, 0, [[97]]⟩ := by
  refine ⟨rfl, fun h => ?_⟩
  rw [show PeerStorage.Resolve (Plain.Add [] ⟨7, 0, [[97]]⟩) [97]
      = .error .peerNotFound from rfl] at h
  exact Except.noConfusion h

/-- C1 (amended): in the prefixed variant, for every alias `a` enumerated by
the peer's `Keys()`, provided the peer's own primary-key bytes are not among
those aliases, `Resolve a` after a successful `Add p` returns `p`. -/
theorem add_resolves_enumerated_aliases (s : Store) (p : Peer) (a : Bytes)
    (ha : a ∈ p.keys) (hid : keyBytes (keyFromPeer p) ∉ p.keys) :
    PeerStorage.Resolve (PeerStorage.Add true s p).1 a = .ok p :=
  resolve_add s p.keys p a ha hid

/-- C1 (witness): concrete instance of the amended claim. -/
theorem add_resolves_enumerated_aliases_witness :
    ([97] ∈ (⟨7, 0, [[97]]⟩ : Peer).keys) ∧
    keyBytes (keyFromPeer ⟨7, 0, [[97]]⟩) ∉ (⟨7, 0, [[97]]⟩ : Peer).keys ∧
    PeerStorage.Resolve (PeerStorage.Add true [] ⟨7, 0, [[97]]⟩).1 [97]
      = .ok ⟨7, 0, [[97]]⟩ :=
  ⟨by decide, by decide,
    add_resolves_enumerated_aliases [] ⟨7, 0, [[97]]⟩ [97] (by decide) (by decide)⟩

/-- C2: `add` (used by both `Add` and `Assign`) routes every entry through
one batch with one commit: when the commit fails, the stored state is
exactly the old one, so `Find`, `Resolve` and a fresh cursor all read as if
the call never happened; the non-prefixed `Assign` behaves the same. -/
theorem add_assign_commit_failure_atomic (s : Store) (assoc : List Bytes)
    (k al : Bytes) (p : Peer) (key : PeerKey) :
    (PeerStorage.add false s assoc p).1 = s ∧
    (PeerStorage.add false s assoc p).2 = some .commitError ∧
    PeerStorage.Find (PeerStorage.add false s assoc p).1 key = PeerStorage.Find s key ∧
    PeerStorage.Resolve (PeerStorage.add false s assoc p).1 al
      = PeerStorage.Resolve s al ∧
    drain (iterEntries (PeerStorage.add false s assoc p).1) = drain (iterEntries s) ∧
    (Plain.Assign false s k p).1 = s :=
  ⟨rfl, rfl, rfl, rfl, rfl, rfl⟩

/-- C3 (counterexample): the claim quantifies over every peer added after
`Iterate`, with no requirement that the peer be new; re-adding a peer whose
record was already at snapshot time makes the existing cursor yield it. -/
theorem iterate_cursor_yields_readded_peer :
    (⟨7, 0, []⟩ : Peer) ∈
      (drain (iterEntries (PeerStorage.Add true [] ⟨7, 0, []⟩).1)).1 ∧
    (PeerStorage.Add true (PeerStorage.Add true [] ⟨7, 0, []⟩).1 ⟨7, 0, []⟩).2 = none :=
  ⟨by decide, rfl⟩

/-- C3 (amended): for a peer that is genuinely new at snapshot time (no
stored value is its encoding) and whose aliases do not contain its own
primary-key bytes, a cursor drained from the snapshot never yields it,
while `Find` on the state left by the later `Add` returns it. -/
theorem iterate_snapshot_isolation (s : Store) (p : Peer)
    (hid : keyBytes (keyFromPeer p) ∉ p.keys)
    (hnew : ∀ e ∈ s, e.2 ≠ encodePeer p) :
    p ∉ (drain (iterEntries s)).1 ∧
    PeerStorage.Find (PeerStorage.Add true s p).1 (keyFromPeer p) = .ok p := by
  constructor
  · intro hq
    simp only [drain] at hq
    obtain ⟨e, he, hdec⟩ := drainFuel_mem _ _ _ hq
    have hs := (iterEntries_sound s e he).1
    have hv := decodePeer_inj e.2 p hdec
    exact hnew (e.1, e.2) (get_mem s e.1 e.2 hs) hv
  · exact find_add s p.keys p hid

/-- C3 (witness): concrete instance of the amended claim. -/
theorem iterate_snapshot_isolation_witness :
    (keyBytes (keyFromPeer ⟨7, 0, []⟩) ∉ (⟨7, 0, []⟩ : Peer).keys) ∧
    (∀ e ∈ ([] : Store), e.2 ≠ encodePeer ⟨7, 0, []⟩) ∧
    ((⟨7, 0, []⟩ : Peer) ∉ (drain (iterEntries ([] : Store))).1 ∧
      PeerStorage.Find (PeerStorage.Add true [] ⟨7, 0, []⟩).1 (keyFromPeer ⟨7, 0, []⟩)
        = .ok ⟨7, 0, []⟩) :=
  ⟨by decide, by decide, iterate_snapshot_isolation [] ⟨7, 0, []⟩ (by decide) (by decide)⟩

/-- C4 (counterexample): an engine state reachable by one `Assign` whose
caller-supplied alias starts with the reserved tag: the alias entry falls
inside the scanned range, its value (primary-key bytes) fails to decode,
and the cursor stops with a latched error before yielding the record entry
that is present at snapshot time. -/
theorem iterate_misses_record_behind_bad_alias :
    Store.get (PeerStorage.Assign true [] [95, 112, 0] ⟨7, 0, []⟩).1
        (keyBytes (keyFromPeer ⟨7, 0, []⟩)) = some (encodePeer ⟨7, 0, []⟩) ∧
    (drain (iterEntries (PeerStorage.Assign true [] [95, 112, 0] ⟨7, 0, []⟩).1)).1 = [] ∧
    (drain (iterEntries (PeerStorage.Assign true [] [95, 112, 0] ⟨7, 0, []⟩).1)).2
      = some .decodeError :=
  ⟨rfl, rfl, rfl⟩

/-- C4 (amended): provided every value stored under a key of the scanned
range decodes (no alias entry hides under the reserved tag), exhausting the
cursor yields the decoded values of exactly the in-range bindings of the
snapshot — sound and complete, each key once, with no trailing error. -/
theorem iterate_yields_exactly_records (s : Store)
    (h : ∀ e ∈ iterEntries s, (decodePeer e.2).isSome) :
    drain (iterEntries s)
      = ((iterEntries s).filterMap (fun e => decodePeer e.2), none) ∧
    ((iterEntries s).map Prod.fst).Nodup ∧
    (∀ e ∈ iterEntries s,
      Store.get s e.1 = some e.2 ∧ KeyPrefix.isPrefixOf e.1 = true) ∧
    (∀ k v, Store.get s k = some v → inRangeB k = true → (k, v) ∈ iterEntries s) := by
  refine ⟨?_, iterEntries_keys_nodup s, ?_, ?_⟩
  · exact drainFuel_all _ _ (le_refl _)
      (fun e he => inRangeB_isPrefixOf e.1 (iterEntries_sound s e he).2) h
  · exact fun e he => ⟨(iterEntries_sound s e he).1,
      inRangeB_isPrefixOf e.1 (iterEntries_sound s e he).2⟩
  · exact fun k v hg hr => iterEntries_complete s k v hg hr

/-- C4 (witness): concrete instance of the amended claim. -/
theorem iterate_yields_exactly_records_witness :
    (∀ e ∈ iterEntries (PeerStorage.Add true [] ⟨7, 0, []⟩).1,
      (decodePeer e.2).isSome) ∧
    drain (iterEntries (PeerStorage.Add true [] ⟨7, 0, []⟩).1)
      = ((iterEntries (PeerStorage.Add true [] ⟨7, 0, []⟩).1).filterMap
          (fun e => decodePeer e.2), none) :=
  ⟨by decide, (iterate_yields_exactly_records _ (by decide)).1⟩

/-- C5 (counterexample): a peer whose enumerated aliases contain its own
primary-key bytes: the alias entry of the same batch overwrites the record
entry, and `Find` after a successful `Add` returns a decode error instead
of the peer. -/
theorem find_after_add_alias_collision :
    keyFromPeer ⟨7, 0, [[95, 112, 7]]⟩ = ⟨7⟩ ∧
    PeerStorage.Find (PeerStorage.Add true [] ⟨7, 0, [[95, 112, 7]]⟩).1 ⟨7⟩
      = .error .decodeError :=
  ⟨rfl, rfl⟩

/-- C5 (amended): for every peer whose enumerated aliases do not contain its
own primary-key bytes, `Find` on the key derived from its identity after a
successful `Add` returns the peer (decode of encode). -/
theorem find_after_add_roundtrip (s : Store) (p : Peer)
    (hid : keyBytes (keyFromPeer p) ∉ p.keys) :
    PeerStorage.Find (PeerStorage.Add true s p).1 (keyFromPeer p) = .ok p :=
  find_add s p.keys p hid

/-- C5 (witness): concrete instance of the amended claim. -/
theorem find_after_add_roundtrip_witness :
    (keyBytes (keyFromPeer ⟨5, 1, [[97], [98]]⟩) ∉ (⟨5, 1, [[97], [98]]⟩ : Peer).keys) ∧
    PeerStorage.Find (PeerStorage.Add true [] ⟨5, 1, [[97], [98]]⟩).1
        (keyFromPeer ⟨5, 1, [[97], [98]]⟩) = .ok ⟨5, 1, [[97], [98]]⟩ :=
  ⟨by decide, find_after_add_roundtrip [] ⟨5, 1, [[97], [98]]⟩ (by decide)⟩

/-- C6: on an identity or alias with no stored entry, `Find` and `Resolve`
return exactly the `NotFound` error — the decode path is never reached. -/
theorem find_resolve_missing_notfound (s : Store) (key : PeerKey) (a : Bytes)
    (h1 : Store.get s (keyBytes key) = none) (h2 : Store.get s a = none) :
    PeerStorage.Find s key = .error .peerNotFound ∧
    PeerStorage.Resolve s a = .error .peerNotFound := by
  constructor
  · simp [PeerStorage.Find, h1]
  · simp [PeerStorage.Resolve, h2]

/-- C6 (witness): concrete instance on the empty store. -/
theorem find_resolve_missing_notfound_witness :
    (Store.get [] (keyBytes ⟨0⟩) = none) ∧ (Store.get [] [97] = none) ∧
    (PeerStorage.Find [] ⟨0⟩ = .error .peerNotFound ∧
      PeerStorage.Resolve [] [97] = .error .peerNotFound) :=
  ⟨rfl, rfl, find_resolve_missing_notfound [] ⟨0⟩ [97] rfl rfl⟩

/-- C7: `keyUpperBound` computes exactly the spec's upper bound — increment
the last byte that is not `0xFF`, truncate the trailing `0xFF` bytes, and no
bound for an empty or all-`0xFF` input — including the three examples. -/
theorem keyUpperBound_matches_spec (b : Bytes) (hb : ∀ x ∈ b, x < 256) :
    keyUpperBound b = upperBoundSpec b ∧
    keyUpperBound [1, 255] = some [2] ∧
    keyUpperBound [255, 255] = none ∧
    keyUpperBound [] = none :=
  ⟨keyUpperBound_eq_spec b hb, rfl, rfl, rfl⟩

/-- C7 (witness): concrete instance. -/
theorem keyUpperBound_matches_spec_witness :
    (∀ x ∈ ([1, 255] : Bytes), x < 256) ∧
    keyUpperBound [1, 255] = upperBoundSpec [1, 255] :=
  ⟨by decide, (keyUpperBound_matches_spec [1, 255] (by decide)).1⟩

/-- C8 (counterexample): `Assign` accepts an arbitrary caller-supplied
alias string; choosing it equal to the stored peer's primary-key bytes
makes the written alias entry collide with — and, being later in the batch,
clobber — the record entry, observable as `Find` returning a decode error. -/
theorem assign_alias_equals_primary_key :
    keyBytes (keyFromPeer ⟨7, 0, []⟩) = [95, 112, 7] ∧
    PeerStorage.Find (PeerStorage.Assign true [] [95, 112, 7] ⟨7, 0, []⟩).1
        (keyFromPeer ⟨7, 0, []⟩) = .error .decodeError :=
  ⟨rfl, rfl⟩

/-- C8 (amended): provided no supplied alias byte string starts with the
reserved tag, every alias key written by `add` differs from every primary
key, and in particular the record entry written in the same call survives. -/
theorem alias_keys_disjoint_from_primary (s : Store) (assoc : List Bytes) (p : Peer)
    (h : ∀ a ∈ assoc, KeyPrefix.isPrefixOf a = false) :
    (∀ a ∈ assoc, ∀ k : PeerKey, a ≠ keyBytes k) ∧
    Store.get (PeerStorage.add true s assoc p).1 (keyBytes (keyFromPeer p))
      = some (encodePeer p) := by
  have hd : ∀ a ∈ assoc, ∀ k : PeerKey, a ≠ keyBytes k := by
    intro a ha k he
    have hh := h a ha
    rw [he] at hh
    simp [keyBytes, KeyPrefix, List.isPrefixOf] at hh
  refine ⟨hd, ?_⟩
  apply get_add_id
  intro hmem
  exact hd _ hmem (keyFromPeer p) rfl

/-- C8 (witness): concrete instance of the amended claim. -/
theorem alias_keys_disjoint_from_primary_witness :
    (∀ a ∈ ([[97]] : List Bytes), KeyPrefix.isPrefixOf a = false) ∧
    ((∀ a ∈ ([[97]] : List Bytes), ∀ k : PeerKey, a ≠ keyBytes k) ∧
      Store.get (PeerStorage.add true [] [[97]] ⟨7, 0, []⟩).1
        (keyBytes (keyFromPeer ⟨7, 0, []⟩)) = some (encodePeer ⟨7, 0, []⟩)) :=
  ⟨by decide, alias_keys_disjoint_from_primary [] [[97]] ⟨7, 0, []⟩ (by decide)⟩

/-- C9 (counterexample): a scan that dies of an engine-level read error
before its first entry is indistinguishable, through the cursor's yields and
its error accessor, from a clean scan of an empty range — the engine error
value never reaches `Err()`. -/
theorem cursor_swallows_engine_read_error :
    drainE ⟨[], true⟩ = ([], none) ∧ drainE ⟨[], false⟩ = ([], none) :=
  ⟨rfl, rfl⟩

/-- C9 (amended): the cursor's behaviour is a function of the entry stream
alone — an engine-level read error only truncates the stream and is not
reported through the error accessor, which is `none` or the latched decode
error, never an engine read error. -/
theorem cursor_err_decode_only (entries : List (Bytes × Bytes)) (e1 e2 : Bool) :
    drainE ⟨entries, e1⟩ = drainE ⟨entries, e2⟩ ∧
    ((drainE ⟨entries, e1⟩).2 = none ∨
      (drainE ⟨entries, e1⟩).2 = some .decodeError) :=
  ⟨rfl, drainFuel_err _ _⟩

/-- C10: a dangling alias — stored, but whose value bytes are no existing
key — makes `Resolve` miss on the second hop and return exactly the
`NotFound` error, the same value as for a never-written alias. -/
theorem resolve_dangling_alias_notfound (s : Store) (a v : Bytes)
    (h1 : Store.get s a = some v) (h2 : Store.get s v = none) :
    PeerStorage.Resolve s a = .error .peerNotFound := by
  simp [PeerStorage.Resolve, h1, h2]

/-- C10 (witness): concrete dangling alias. -/
theorem resolve_dangling_alias_notfound_witness :
    (Store.get [([97], [98])] [97] = some [98]) ∧
    (Store.get [([97], [98])] [98] = none) ∧
    PeerStorage.Resolve [([97], [98])] [97] = .error .peerNotFound :=
  ⟨by decide, by decide,
    resolve_dangling_alias_notfound [([97], [98])] [97] [98] (by decide) (by decide)⟩
